import Mathlib

/-!
Verification of the markdown tokenizer core against its specification.

The development shallowly embeds the two constructs present in the source
(`src/construct/code_text.rs` and `src/construct/partial_non_lazy_continuation.rs`)
together with the parts of the tokenizer engine they rely on, and a model of
the delimiter-run resolver ("attention"), whose implementation is exercised
only through the conformance tests in `tests/attention.rs`.
-/

namespace MD

/-- The grave accent (backtick) character, the code-span marker. -/
def grave : Char := Char.ofNat 96

/-- Whether an event opens or closes a span. -/
inductive EventType where
  | enter
  | exit
deriving DecidableEq, Repr

/-- The token kinds used by the two embedded constructs. -/
inductive Token where
  | CodeText
  | CodeTextSequence
  | CodeTextData
  | LineEnding
  | CharacterEscape
  | Data
deriving DecidableEq, Repr

/-- One record of the event log. -/
structure Event where
  event_type : EventType
  token_type : Token
deriving DecidableEq, Repr

/-- An input unit, mirroring the `Code` enum of the tokenizer. -/
inductive Code where
  | none
  | carriageReturnLineFeed
  | virtualSpace
  | char (c : Char)
deriving DecidableEq, Repr

/-- Whether a unit is a line ending: CRLF, bare LF, or bare CR. -/
def isEol : Code → Bool
  | Code.carriageReturnLineFeed => true
  | Code.char c => c == '\n' || c == '\r'
  | _ => false

/-- The tokenizer state the embedded constructs read and write: the event
log, the open-token stack, the previous unit, a count of consumed units,
the `lazy` flag, and the code-text construct switch of the configuration. -/
structure Tokenizer where
  events : List Event
  stack : List Token
  previous : Code
  consumed : Nat
  lazy : Bool
  code_text : Bool
deriving DecidableEq, Repr

/-- `enter` appends an Enter event and pushes the token on the open stack. -/
def Tokenizer.enter (t : Tokenizer) (token : Token) : Tokenizer :=
  { t with events := t.events ++ [⟨EventType.enter, token⟩], stack := token :: t.stack }

/-- `exit` appends an Exit event and pops the open stack. -/
def Tokenizer.exit (t : Tokenizer) (token : Token) : Tokenizer :=
  { t with events := t.events ++ [⟨EventType.exit, token⟩], stack := t.stack.tail }

/-- `consume` moves past the current unit, remembering it as `previous`. -/
def Tokenizer.consume (t : Tokenizer) (code : Code) : Tokenizer :=
  { t with previous := code, consumed := t.consumed + 1 }

/-- In-place change of the token type of the event at an index
(`tokenizer.events[i].token_type = token`). -/
def retagAt : List Event → Nat → Token → List Event
  | [], _, _ => []
  | e :: es, 0, token => { e with token_type := token } :: es
  | e :: es, Nat.succ n, token => e :: retagAt es n token

/-- The defunctionalized continuations (`State::Fn` closures) of the two
embedded constructs. -/
inductive StateName where
  | sequence_open (size : Nat)
  | between (size_open : Nat)
  | dataState (size_open : Nat)
  | sequence_close (size_open : Nat) (size : Nat)
  | non_lazy_after
deriving DecidableEq, Repr

/-- The `State` returned by a state function: done and ok, done and not ok,
or a continuation for the next unit. -/
inductive State where
  | Ok
  | Nok
  | Fn (next : StateName)
deriving DecidableEq, Repr

/-- Result of one state function: the mutated tokenizer, the next state, and
the number of already-peeked units to redeliver (`StateFnResult`). -/
abbrev StateFnResult := Tokenizer × State × Nat

namespace CodeText

/-- Termination rank of `between` at a unit. -/
def rank_between (code : Code) : Nat :=
  if code = Code.char grave then 2
  else if code = Code.none ∨ isEol code = true then 0
  else 4

/-- Termination rank of `data` at a unit. -/
def rank_data (code : Code) : Nat :=
  if code = Code.none ∨ isEol code = true ∨ code = Code.char grave then 3 else 0

/-- Termination rank of `sequence_close` at a unit. -/
def rank_sequence_close (code : Code) : Nat :=
  if code = Code.char grave then 0 else 5

/-- Termination rank of `sequence_open` at a unit. -/
def rank_sequence_open (code : Code) : Nat :=
  if code = Code.char grave then 0 else 6

theorem rank_close_lt_between (code : Code) (h : code = Code.char grave) :
    rank_sequence_close code < rank_between code := by
  unfold rank_sequence_close rank_between
  split_ifs <;> simp_all

theorem rank_data_lt_between (code : Code) (h0 : ¬code = Code.none)
    (h1 : ¬isEol code = true) (h2 : ¬code = Code.char grave) :
    rank_data code < rank_between code := by
  unfold rank_data rank_between
  split_ifs <;> simp_all

theorem rank_between_lt_data (code : Code)
    (h : code = Code.none ∨ isEol code = true ∨ code = Code.char grave) :
    rank_between code < rank_data code := by
  unfold rank_between rank_data
  split_ifs <;> simp_all

theorem rank_between_lt_close (code : Code) (h : ¬code = Code.char grave) :
    rank_between code < rank_sequence_close code := by
  unfold rank_between rank_sequence_close
  split_ifs <;> simp_all

theorem rank_between_lt_open (code : Code) (h : ¬code = Code.char grave) :
    rank_between code < rank_sequence_open code := by
  unfold rank_between rank_sequence_open
  split_ifs <;> simp_all

mutual

/-- Embedding of `between` (code_text.rs): between something and something
else inside a code span. -/
def between (tokenizer : Tokenizer) (code : Code) (size_open : Nat) :
    StateFnResult :=
  if code = Code.none then (tokenizer, State.Nok, 0)
  else if isEol code = true then
    (((tokenizer.enter Token.LineEnding).consume code).exit Token.LineEnding,
      State.Fn (StateName.between size_open), 0)
  else if h : code = Code.char grave then
    sequence_close (tokenizer.enter Token.CodeTextSequence) code size_open 0
  else
    data (tokenizer.enter Token.CodeTextData) code size_open
termination_by rank_between code
decreasing_by
  · exact rank_close_lt_between code h
  · exact rank_data_lt_between code (by assumption) (by assumption) h

/-- Embedding of `data` (code_text.rs): in code-span data. -/
def data (tokenizer : Tokenizer) (code : Code) (size_open : Nat) :
    StateFnResult :=
  if h : code = Code.none ∨ isEol code = true ∨ code = Code.char grave then
    between (tokenizer.exit Token.CodeTextData) code size_open
  else
    (tokenizer.consume code, State.Fn (StateName.dataState size_open), 0)
termination_by rank_data code
decreasing_by
  exact rank_between_lt_data code h

/-- Embedding of `sequence_close` (code_text.rs): in the closing sequence. -/
def sequence_close (tokenizer : Tokenizer) (code : Code) (size_open : Nat)
    (size : Nat) : StateFnResult :=
  if h : code = Code.char grave then
    (tokenizer.consume code, State.Fn (StateName.sequence_close size_open (size + 1)), 0)
  else if size_open = size then
    ((tokenizer.exit Token.CodeTextSequence).exit Token.CodeText, State.Ok,
      if code = Code.none then 0 else 1)
  else
    let index := tokenizer.events.length
    let tokenizer := tokenizer.exit Token.CodeTextSequence
    let tokenizer := { tokenizer with
      events := retagAt (retagAt tokenizer.events (index - 1) Token.CodeTextData)
        index Token.CodeTextData }
    between tokenizer code size_open
termination_by rank_sequence_close code
decreasing_by
  exact rank_between_lt_close code h

end

/-- Embedding of `sequence_open` (code_text.rs): in the opening sequence. -/
def sequence_open (tokenizer : Tokenizer) (code : Code) (size : Nat) :
    StateFnResult :=
  if h : code = Code.char grave then
    (tokenizer.consume code, State.Fn (StateName.sequence_open (size + 1)), 0)
  else
    between (tokenizer.exit Token.CodeTextSequence) code size

/-- Embedding of `start` (code_text.rs): start of code (text). -/
def start (tokenizer : Tokenizer) (code : Code) : StateFnResult :=
  let len := tokenizer.events.length
  if code = Code.char grave ∧ tokenizer.code_text = true ∧
      (tokenizer.previous ≠ Code.char grave ∨
        (len > 0 ∧ (tokenizer.events.get? (len - 1)).map Event.token_type =
          some Token.CharacterEscape)) then
    sequence_open ((tokenizer.enter Token.CodeText).enter Token.CodeTextSequence) code 0
  else
    (tokenizer, State.Nok, 0)

end CodeText

namespace NonLazyContinuation

/-- Embedding of `start` (partial_non_lazy_continuation.rs): start of the
continuation check. -/
def start (tokenizer : Tokenizer) (code : Code) : StateFnResult :=
  if isEol code = true then
    (((tokenizer.enter Token.LineEnding).consume code).exit Token.LineEnding,
      State.Fn StateName.non_lazy_after, 0)
  else
    (tokenizer, State.Nok, 0)

/-- Embedding of `after` (partial_non_lazy_continuation.rs): after the line
ending. -/
def after (tokenizer : Tokenizer) (code : Code) : StateFnResult :=
  if tokenizer.lazy = true then (tokenizer, State.Nok, 0)
  else (tokenizer, State.Ok, if code = Code.none then 0 else 1)

end NonLazyContinuation

/-- Dispatch a stored continuation on the next unit. -/
def stepState : StateName → Tokenizer → Code → StateFnResult
  | StateName.sequence_open size, t, c => CodeText.sequence_open t c size
  | StateName.between size_open, t, c => CodeText.between t c size_open
  | StateName.dataState size_open, t, c => CodeText.data t c size_open
  | StateName.sequence_close size_open size, t, c => CodeText.sequence_close t c size_open size
  | StateName.non_lazy_after, t, c => NonLazyContinuation.after t c

/-- Result of feeding a whole unit list to a construct. -/
inductive RunResult where
  | accept (lookahead : Nat) (remaining : List Code)
  | reject
  | outOfInput (pending : StateName)
deriving DecidableEq, Repr

/-- Feed units one at a time to the active continuation, as the engine's
outer loop does; a reported lookahead of one redelivers the current unit. -/
def runLoop : Tokenizer → StateName → List Code → Tokenizer × RunResult
  | t, s, [] => (t, RunResult.outOfInput s)
  | t, s, c :: rest =>
    match stepState s t c with
    | (t1, State.Ok, la) =>
      (t1, RunResult.accept la (if la = 0 then rest else c :: rest))
    | (t1, State.Nok, _) => (t1, RunResult.reject)
    | (t1, State.Fn s1, _) => runLoop t1 s1 rest

/-- Run the code-text construct from its start state on a unit list. -/
def runCodeText (t : Tokenizer) : List Code → Tokenizer × RunResult
  | [] => (t, RunResult.reject)
  | c :: rest =>
    match CodeText.start t c with
    | (t1, State.Ok, la) =>
      (t1, RunResult.accept la (if la = 0 then rest else c :: rest))
    | (t1, State.Nok, _) => (t1, RunResult.reject)
    | (t1, State.Fn s1, _) => runLoop t1 s1 rest

/-- Modelled from the spec: the engine's checkpoint/rewind around a
speculative attempt (the tokenizer engine itself is not among the source
files).  The log length and state are snapshot, the construct runs, and on
anything but an accept the snapshot is restored, so a failed attempt leaves
no events behind. -/
def attempt (t : Tokenizer) (codes : List Code) : Tokenizer × Bool :=
  match runCodeText t codes with
  | (t1, RunResult.accept _ _) => (t1, true)
  | (_, _) => (t, false)

/-! ### The well-nesting checker and event-list helpers -/

/-- Run the open-token stack over an event list: an Enter pushes its kind, an
Exit must match the top of the stack; the result is the residual stack, or
`none` on a mismatch or an Exit without a matching Enter. -/
def nestCheck : List Token → List Event → Option (List Token)
  | stk, [] => some stk
  | stk, ⟨EventType.enter, token⟩ :: es => nestCheck (token :: stk) es
  | stk, ⟨EventType.exit, token⟩ :: es =>
    match stk with
    | [] => Option.none
    | top :: stk1 => if top = token then nestCheck stk1 es else Option.none

/-- An event list is well nested when every Exit matches the nearest
unmatched preceding Enter of the same kind and no Enter is left unmatched. -/
def wellNested (es : List Event) : Prop := nestCheck [] es = some []

/-- A content event of a code span: plain data or a line ending. -/
def contentEvent (e : Event) : Prop :=
  e.token_type = Token.CodeTextData ∨ e.token_type = Token.LineEnding

/-- All events of a list are content events. -/
def contentEvents (es : List Event) : Prop := ∀ e ∈ es, contentEvent e

/-- The three events an accepting code-text run starts with. -/
def open3 : List Event :=
  [⟨EventType.enter, Token.CodeText⟩, ⟨EventType.enter, Token.CodeTextSequence⟩,
    ⟨EventType.exit, Token.CodeTextSequence⟩]

/-- The three events an accepting code-text run ends with. -/
def close3 : List Event :=
  [⟨EventType.enter, Token.CodeTextSequence⟩, ⟨EventType.exit, Token.CodeTextSequence⟩,
    ⟨EventType.exit, Token.CodeText⟩]

/-- The full event shape of an accepting code-text run around its content. -/
def acceptedShape (body : List Event) : List Event := open3 ++ body ++ close3

/-- An Enter/Exit pair of one token kind at one position. -/
def pairOf (token : Token) : List Event :=
  [⟨EventType.enter, token⟩, ⟨EventType.exit, token⟩]

theorem nestCheck_append (es1 es2 : List Event) :
    ∀ stk, nestCheck stk (es1 ++ es2) =
      (nestCheck stk es1).bind fun s => nestCheck s es2 := by
  induction es1 with
  | nil => intro stk; simp [nestCheck]
  | cons e es ih =>
    intro stk
    obtain ⟨b, token⟩ := e
    cases b with
    | enter => simpa [nestCheck] using ih (token :: stk)
    | exit =>
      cases stk with
      | nil => simp [nestCheck]
      | cons top stk1 =>
        by_cases h : top = token <;> simp [nestCheck, h, ih stk1]

theorem nestCheck_pair (token : Token) (stk : List Token) :
    nestCheck stk (pairOf token) = some stk := by
  simp [pairOf, nestCheck]

theorem contentEvents_append {es1 es2 : List Event} :
    contentEvents (es1 ++ es2) ↔ contentEvents es1 ∧ contentEvents es2 := by
  constructor
  · intro h
    exact ⟨fun e he => h e (List.mem_append_left _ he),
      fun e he => h e (List.mem_append_right _ he)⟩
  · rintro ⟨h1, h2⟩ e he
    rcases List.mem_append.mp he with he | he
    · exact h1 e he
    · exact h2 e he

theorem contentEvents_pair {token : Token}
    (h : token = Token.CodeTextData ∨ token = Token.LineEnding) :
    contentEvents (pairOf token) := by
  rcases h with h | h <;> simp [pairOf, contentEvents, contentEvent, h]

/-- A nonempty well-nested event list opens with an Enter event. -/
theorem wellNested_head_enter {e : Event} {es : List Event}
    (h : wellNested (e :: es)) : e.event_type = EventType.enter := by
  obtain ⟨b, token⟩ := e
  cases b with
  | enter => rfl
  | exit => simp [wellNested, nestCheck] at h

theorem retagAt_append (l1 l2 : List Event) (i : Nat) (token : Token) :
    retagAt (l1 ++ l2) (l1.length + i) token = l1 ++ retagAt l2 i token := by
  induction l1 with
  | nil => simp
  | cons e es ih => simpa [retagAt, Nat.succ_add] using ih

/-! ### Branch characterizations of the code-text state functions -/

theorem between_none (t : Tokenizer) (size_open : Nat) :
    CodeText.between t Code.none size_open = (t, State.Nok, 0) := by
  rw [CodeText.between.eq_def]
  simp

theorem between_eol (t : Tokenizer) (code : Code) (size_open : Nat)
    (h : isEol code = true) :
    CodeText.between t code size_open =
      (((t.enter Token.LineEnding).consume code).exit Token.LineEnding,
        State.Fn (StateName.between size_open), 0) := by
  rw [CodeText.between.eq_def]
  have h0 : code ≠ Code.none := by rintro rfl; simp [isEol] at h
  rw [if_neg h0, if_pos h]

theorem isEol_grave : isEol (Code.char grave) = false := by decide

theorem between_grave (t : Tokenizer) (size_open : Nat) :
    CodeText.between t (Code.char grave) size_open =
      CodeText.sequence_close (t.enter Token.CodeTextSequence) (Code.char grave)
        size_open 0 := by
  rw [CodeText.between.eq_def]
  rw [if_neg (by simp), if_neg (by simp [isEol_grave]), dif_pos rfl]

theorem between_data (t : Tokenizer) (code : Code) (size_open : Nat)
    (h0 : code ≠ Code.none) (h1 : isEol code = false) (h2 : code ≠ Code.char grave) :
    CodeText.between t code size_open =
      CodeText.data (t.enter Token.CodeTextData) code size_open := by
  rw [CodeText.between.eq_def]
  rw [if_neg h0, if_neg (by simp [h1]), dif_neg h2]

theorem data_break (t : Tokenizer) (code : Code) (size_open : Nat)
    (h : code = Code.none ∨ isEol code = true ∨ code = Code.char grave) :
    CodeText.data t code size_open =
      CodeText.between (t.exit Token.CodeTextData) code size_open := by
  rw [CodeText.data.eq_def]
  rw [dif_pos h]

theorem data_consume (t : Tokenizer) (code : Code) (size_open : Nat)
    (h : ¬(code = Code.none ∨ isEol code = true ∨ code = Code.char grave)) :
    CodeText.data t code size_open =
      (t.consume code, State.Fn (StateName.dataState size_open), 0) := by
  rw [CodeText.data.eq_def]
  rw [dif_neg h]

theorem sequence_close_grave (t : Tokenizer) (size_open size : Nat) :
    CodeText.sequence_close t (Code.char grave) size_open size =
      (t.consume (Code.char grave),
        State.Fn (StateName.sequence_close size_open (size + 1)), 0) := by
  rw [CodeText.sequence_close.eq_def]
  rw [dif_pos rfl]

theorem sequence_close_done (t : Tokenizer) (code : Code) (size_open : Nat)
    (h : code ≠ Code.char grave) :
    CodeText.sequence_close t code size_open size_open =
      ((t.exit Token.CodeTextSequence).exit Token.CodeText, State.Ok,
        if code = Code.none then 0 else 1) := by
  rw [CodeText.sequence_close.eq_def]
  rw [dif_neg h, if_pos rfl]

theorem sequence_close_retag (t : Tokenizer) (code : Code) (size_open size : Nat)
    (h : code ≠ Code.char grave) (hne : size_open ≠ size) :
    CodeText.sequence_close t code size_open size =
      CodeText.between
        { t with
          events := retagAt
            (retagAt (t.events ++ [⟨EventType.exit, Token.CodeTextSequence⟩])
              (t.events.length - 1) Token.CodeTextData)
            t.events.length Token.CodeTextData,
          stack := t.stack.tail } code size_open := by
  rw [CodeText.sequence_close.eq_def]
  rw [dif_neg h, if_neg hne]
  rfl

theorem sequence_open_grave (t : Tokenizer) (size : Nat) :
    CodeText.sequence_open t (Code.char grave) size =
      (t.consume (Code.char grave), State.Fn (StateName.sequence_open (size + 1)), 0) := by
  rw [CodeText.sequence_open]
  rw [dif_pos rfl]

theorem sequence_open_break (t : Tokenizer) (code : Code) (size : Nat)
    (h : code ≠ Code.char grave) :
    CodeText.sequence_open t code size =
      CodeText.between (t.exit Token.CodeTextSequence) code size := by
  rw [CodeText.sequence_open]
  rw [dif_neg h]

theorem start_guard (t : Tokenizer) (code : Code) :
    CodeText.start t code =
      if code = Code.char grave ∧ t.code_text = true ∧
          (t.previous ≠ Code.char grave ∨
            (t.events.length > 0 ∧
              (t.events.get? (t.events.length - 1)).map Event.token_type =
                some Token.CharacterEscape)) then
        (((t.enter Token.CodeText).enter Token.CodeTextSequence).consume code,
          State.Fn (StateName.sequence_open 1), 0)
      else (t, State.Nok, 0) := by
  simp only [CodeText.start]
  split_ifs with h
  · obtain ⟨hc, -, -⟩ := h
    subst hc
    rw [sequence_open_grave]
  · rfl

/-! ### Run invariants: the event shape of a code-text run in progress -/

/-- The open tokens a continuation of the code-text construct holds. -/
def stackOf : StateName → List Token
  | StateName.sequence_open _ => [Token.CodeTextSequence, Token.CodeText]
  | StateName.between _ => [Token.CodeText]
  | StateName.dataState _ => [Token.CodeTextData, Token.CodeText]
  | StateName.sequence_close _ _ => [Token.CodeTextSequence, Token.CodeText]
  | StateName.non_lazy_after => []

/-- Shape of the events a code-text run has appended so far, per state. -/
def AppInv : StateName → List Event → Prop
  | StateName.sequence_open _, app =>
      app = [⟨EventType.enter, Token.CodeText⟩, ⟨EventType.enter, Token.CodeTextSequence⟩]
  | StateName.between _, app =>
      ∃ body, app = open3 ++ body ∧ contentEvents body ∧ wellNested body ∧ body ≠ []
  | StateName.dataState _, app =>
      ∃ body, app = open3 ++ body ++ [⟨EventType.enter, Token.CodeTextData⟩] ∧
        contentEvents body ∧ wellNested body
  | StateName.sequence_close _ _, app =>
      ∃ body, app = open3 ++ body ++ [⟨EventType.enter, Token.CodeTextSequence⟩] ∧
        contentEvents body ∧ wellNested body ∧ body ≠ []
  | StateName.non_lazy_after, _ => False

/-- Invariant of a code-text run in progress, relative to the log and open
stack the run started from. -/
def StateInv (es0 : List Event) (stk0 : List Token) (s : StateName)
    (t : Tokenizer) : Prop :=
  ∃ app, t.events = es0 ++ app ∧ AppInv s app ∧ t.stack = stackOf s ++ stk0

theorem stateInv_nla {es0 : List Event} {stk0 : List Token} {t : Tokenizer}
    (h : StateInv es0 stk0 StateName.non_lazy_after t) : False := by
  obtain ⟨app, -, happ, -⟩ := h
  exact happ

theorem wellNested_append_pair {es : List Event} (token : Token)
    (h : wellNested es) : wellNested (es ++ pairOf token) := by
  unfold wellNested at *
  rw [nestCheck_append, h]
  simpa using nestCheck_pair token []

theorem retag_close_events (E : List Event) (a b : Event) (token : Token) :
    retagAt (retagAt ((E ++ [a]) ++ [b]) ((E ++ [a]).length - 1) token)
      ((E ++ [a]).length) token =
      E ++ [⟨a.event_type, token⟩, ⟨b.event_type, token⟩] := by
  have h0 : (E ++ [a]).length - 1 = E.length + 0 := by simp
  have h1 : (E ++ [a]).length = E.length + 1 := by simp
  rw [h0, h1, List.append_assoc]
  have h2 : [a] ++ [b] = [a, b] := rfl
  rw [h2, retagAt_append E [a, b] 0 token]
  have h3 : retagAt [a, b] 0 token = [⟨a.event_type, token⟩, b] := rfl
  rw [h3, retagAt_append E [⟨a.event_type, token⟩, b] 1 token]
  rfl

/-- One step of `between` from a well-shaped tokenizer preserves the run
invariant whenever it returns a continuation. -/
theorem between_fn_inv (es0 : List Event) (stk0 : List Token) (body : List Event)
    (t : Tokenizer) (c : Code) (so : Nat) (t1 : Tokenizer) (s1 : StateName) (la : Nat)
    (hev : t.events = es0 ++ (open3 ++ body)) (hct : contentEvents body)
    (hwn : wellNested body) (hstk : t.stack = Token.CodeText :: stk0)
    (hne : c = Code.char grave → body ≠ [])
    (hstep : CodeText.between t c so = (t1, State.Fn s1, la)) :
    StateInv es0 stk0 s1 t1 := by
  by_cases h0 : c = Code.none
  · subst h0
    rw [between_none] at hstep
    simp at hstep
  by_cases h1 : isEol c = true
  · rw [between_eol t c so h1] at hstep
    simp only [Prod.mk.injEq, State.Fn.injEq] at hstep
    obtain ⟨rfl, rfl, rfl⟩ := hstep
    refine ⟨open3 ++ (body ++ pairOf Token.LineEnding), ?_, ⟨body ++ pairOf Token.LineEnding, rfl, ?_, ?_, ?_⟩, ?_⟩
    · simp [Tokenizer.enter, Tokenizer.exit, Tokenizer.consume, hev, pairOf]
    · exact contentEvents_append.mpr ⟨hct, contentEvents_pair (Or.inr rfl)⟩
    · exact wellNested_append_pair _ hwn
    · simp [pairOf]
    · simp [Tokenizer.enter, Tokenizer.exit, Tokenizer.consume, hstk, stackOf]
  by_cases h2 : c = Code.char grave
  · subst h2
    rw [between_grave, sequence_close_grave] at hstep
    simp only [Prod.mk.injEq, State.Fn.injEq] at hstep
    obtain ⟨rfl, rfl, rfl⟩ := hstep
    refine ⟨open3 ++ body ++ [⟨EventType.enter, Token.CodeTextSequence⟩],
      ?_, ⟨body, rfl, hct, hwn, hne rfl⟩, ?_⟩
    · simp [Tokenizer.enter, Tokenizer.consume, hev]
    · simp [Tokenizer.enter, Tokenizer.consume, hstk, stackOf]
  · rw [between_data t c so h0 (by simpa using h1) h2,
      data_consume _ c so (by simp [h0, h1, h2])] at hstep
    simp only [Prod.mk.injEq, State.Fn.injEq] at hstep
    obtain ⟨rfl, rfl, rfl⟩ := hstep
    refine ⟨open3 ++ body ++ [⟨EventType.enter, Token.CodeTextData⟩],
      ?_, ⟨body, rfl, hct, hwn⟩, ?_⟩
    · simp [Tokenizer.enter, Tokenizer.consume, hev]
    · simp [Tokenizer.enter, Tokenizer.consume, hstk, stackOf]

/-- `between` never accepts within a single step. -/
theorem between_not_ok (t : Tokenizer) (c : Code) (so : Nat) (t1 : Tokenizer)
    (la : Nat) (hstep : CodeText.between t c so = (t1, State.Ok, la)) : False := by
  by_cases h0 : c = Code.none
  · subst h0; rw [between_none] at hstep; simp at hstep
  by_cases h1 : isEol c = true
  · rw [between_eol t c so h1] at hstep; simp at hstep
  by_cases h2 : c = Code.char grave
  · subst h2; rw [between_grave, sequence_close_grave] at hstep; simp at hstep
  · rw [between_data t c so h0 (by simpa using h1) h2,
      data_consume _ c so (by simp [h0, h1, h2])] at hstep
    simp at hstep

/-- A step from any code-text continuation preserves the run invariant when
it returns a continuation. -/
theorem stepState_fn_inv {es0 : List Event} {stk0 : List Token} {s : StateName}
    {t : Tokenizer} {c : Code} {t1 : Tokenizer} {s1 : StateName} {la : Nat}
    (hinv : StateInv es0 stk0 s t)
    (hstep : stepState s t c = (t1, State.Fn s1, la)) :
    StateInv es0 stk0 s1 t1 := by
  obtain ⟨app, hev, happ, hstk⟩ := hinv
  cases s with
  | non_lazy_after => exact happ.elim
  | sequence_open n =>
    simp only [stepState] at hstep
    rw [show app = [⟨EventType.enter, Token.CodeText⟩,
      ⟨EventType.enter, Token.CodeTextSequence⟩] from happ] at hev
    by_cases hg : c = Code.char grave
    · subst hg
      rw [sequence_open_grave] at hstep
      simp only [Prod.mk.injEq, State.Fn.injEq] at hstep
      obtain ⟨rfl, rfl, rfl⟩ := hstep
      exact ⟨[⟨EventType.enter, Token.CodeText⟩, ⟨EventType.enter, Token.CodeTextSequence⟩],
        by simp [Tokenizer.consume, hev], rfl,
        by simp [Tokenizer.consume, hstk, stackOf]⟩
    · rw [sequence_open_break _ _ _ hg] at hstep
      refine between_fn_inv es0 stk0 [] _ c n t1 s1 la ?_ ?_ ?_ ?_ (fun h => absurd h hg) hstep
      · simp [Tokenizer.exit, hev, open3]
      · intro e he; simp at he
      · simp [wellNested, nestCheck]
      · simp [Tokenizer.exit, hstk, stackOf]
  | between so =>
    obtain ⟨body, rfl, hct, hwn, hbne⟩ := happ
    exact between_fn_inv es0 stk0 body t c so t1 s1 la hev hct hwn
      (by simpa [stackOf] using hstk) (fun _ => hbne)
      (by simpa [stepState] using hstep)
  | dataState so =>
    obtain ⟨body, rfl, hct, hwn⟩ := happ
    simp only [stepState] at hstep
    by_cases h : c = Code.none ∨ isEol c = true ∨ c = Code.char grave
    · rw [data_break _ _ _ h] at hstep
      refine between_fn_inv es0 stk0 (body ++ pairOf Token.CodeTextData) _ c so t1 s1 la
        ?_ ?_ ?_ ?_ (fun _ => by simp [pairOf]) hstep
      · simp [Tokenizer.exit, hev, pairOf, List.append_assoc]
      · exact contentEvents_append.mpr ⟨hct, contentEvents_pair (Or.inl rfl)⟩
      · exact wellNested_append_pair _ hwn
      · simp [Tokenizer.exit, hstk, stackOf]
    · rw [data_consume _ _ _ h] at hstep
      simp only [Prod.mk.injEq, State.Fn.injEq] at hstep
      obtain ⟨rfl, rfl, rfl⟩ := hstep
      exact ⟨_, by simp [Tokenizer.consume, hev], ⟨body, rfl, hct, hwn⟩,
        by simp [Tokenizer.consume, hstk, stackOf]⟩
  | sequence_close so k =>
    obtain ⟨body, rfl, hct, hwn, hbne⟩ := happ
    simp only [stepState] at hstep
    by_cases hg : c = Code.char grave
    · subst hg
      rw [sequence_close_grave] at hstep
      simp only [Prod.mk.injEq, State.Fn.injEq] at hstep
      obtain ⟨rfl, rfl, rfl⟩ := hstep
      exact ⟨_, by simp [Tokenizer.consume, hev], ⟨body, rfl, hct, hwn, hbne⟩,
        by simp [Tokenizer.consume, hstk, stackOf]⟩
    · by_cases hk : so = k
      · subst hk
        rw [sequence_close_done _ _ _ hg] at hstep
        simp at hstep
      · rw [sequence_close_retag _ _ _ _ hg hk] at hstep
        have hE : t.events = ((es0 ++ open3 ++ body) ++
            [(⟨EventType.enter, Token.CodeTextSequence⟩ : Event)]) := by
          simp [hev, List.append_assoc]
        refine between_fn_inv es0 stk0 (body ++ pairOf Token.CodeTextData) _ c so t1 s1 la
          ?_ ?_ ?_ ?_ (fun _ => by simp [pairOf]) hstep
        · show retagAt (retagAt (t.events ++ [⟨EventType.exit, Token.CodeTextSequence⟩])
            (t.events.length - 1) Token.CodeTextData) t.events.length Token.CodeTextData =
            es0 ++ (open3 ++ (body ++ pairOf Token.CodeTextData))
          rw [hE, retag_close_events]
          simp [pairOf, List.append_assoc]
        · exact contentEvents_append.mpr ⟨hct, contentEvents_pair (Or.inl rfl)⟩
        · exact wellNested_append_pair _ hwn
        · simp [hstk, stackOf]

/-- A step that accepts leaves the log extended by a complete accepting
code-text shape with nonempty content, and the open stack restored. -/
theorem stepState_ok_shape {es0 : List Event} {stk0 : List Token} {s : StateName}
    {t : Tokenizer} {c : Code} {t1 : Tokenizer} {la : Nat}
    (hinv : StateInv es0 stk0 s t)
    (hstep : stepState s t c = (t1, State.Ok, la)) :
    ∃ body, t1.events = es0 ++ acceptedShape body ∧ contentEvents body ∧
      wellNested body ∧ body ≠ [] ∧ t1.stack = stk0 := by
  obtain ⟨app, hev, happ, hstk⟩ := hinv
  cases s with
  | non_lazy_after => exact happ.elim
  | sequence_open n =>
    simp only [stepState] at hstep
    by_cases hg : c = Code.char grave
    · subst hg; rw [sequence_open_grave] at hstep; simp at hstep
    · rw [sequence_open_break _ _ _ hg] at hstep
      exact (between_not_ok _ _ _ _ _ hstep).elim
  | between so =>
    simp only [stepState] at hstep
    exact (between_not_ok _ _ _ _ _ hstep).elim
  | dataState so =>
    simp only [stepState] at hstep
    by_cases h : c = Code.none ∨ isEol c = true ∨ c = Code.char grave
    · rw [data_break _ _ _ h] at hstep
      exact (between_not_ok _ _ _ _ _ hstep).elim
    · rw [data_consume _ _ _ h] at hstep; simp at hstep
  | sequence_close so k =>
    obtain ⟨body, rfl, hct, hwn, hbne⟩ := happ
    simp only [stepState] at hstep
    by_cases hg : c = Code.char grave
    · subst hg; rw [sequence_close_grave] at hstep; simp at hstep
    · by_cases hk : so = k
      · subst hk
        rw [sequence_close_done _ _ _ hg] at hstep
        simp only [Prod.mk.injEq] at hstep
        obtain ⟨rfl, -, -⟩ := hstep
        refine ⟨body, ?_, hct, hwn, hbne, ?_⟩
        · simp [Tokenizer.exit, hev, acceptedShape, close3, List.append_assoc]
        · simp [Tokenizer.exit, hstk, stackOf]
      · rw [sequence_close_retag _ _ _ _ hg hk] at hstep
        exact (between_not_ok _ _ _ _ _ hstep).elim

theorem runLoop_cons_fn {t t2 : Tokenizer} {s s2 : StateName} {c : Code}
    {rest : List Code} {la : Nat}
    (h : stepState s t c = (t2, State.Fn s2, la)) :
    runLoop t s (c :: rest) = runLoop t2 s2 rest := by
  simp [runLoop, h]

theorem runLoop_cons_ok {t t2 : Tokenizer} {s : StateName} {c : Code}
    {rest : List Code} {la : Nat}
    (h : stepState s t c = (t2, State.Ok, la)) :
    runLoop t s (c :: rest) =
      (t2, RunResult.accept la (if la = 0 then rest else c :: rest)) := by
  simp [runLoop, h]

theorem runLoop_cons_nok {t t2 : Tokenizer} {s : StateName} {c : Code}
    {rest : List Code} {la : Nat}
    (h : stepState s t c = (t2, State.Nok, la)) :
    runLoop t s (c :: rest) = (t2, RunResult.reject) := by
  simp [runLoop, h]

/-- Any accepting continuation run of the code-text construct leaves the log
extended by a complete accepting shape with nonempty content. -/
theorem runLoop_accept_inv {es0 : List Event} {stk0 : List Token} :
    ∀ (codes : List Code) (t : Tokenizer) (s : StateName) (t1 : Tokenizer)
      (la : Nat) (rem : List Code),
      StateInv es0 stk0 s t →
      runLoop t s codes = (t1, RunResult.accept la rem) →
      ∃ body, t1.events = es0 ++ acceptedShape body ∧ contentEvents body ∧
        wellNested body ∧ body ≠ [] ∧ t1.stack = stk0 := by
  intro codes
  induction codes with
  | nil =>
    intro t s t1 la rem hinv hrun
    simp [runLoop] at hrun
  | cons c rest ih =>
    intro t s t1 la rem hinv hrun
    rcases h2 : stepState s t c with ⟨t2, r, la2⟩
    cases r with
    | Ok =>
      rw [runLoop_cons_ok h2] at hrun
      simp only [Prod.mk.injEq, RunResult.accept.injEq] at hrun
      obtain ⟨rfl, -, -⟩ := hrun
      exact stepState_ok_shape hinv h2
    | Nok =>
      rw [runLoop_cons_nok h2] at hrun
      simp at hrun
    | Fn s2 =>
      rw [runLoop_cons_fn h2] at hrun
      exact ih t2 s2 t1 la rem (stepState_fn_inv hinv h2) hrun

theorem runCodeText_cons_fn {t t2 : Tokenizer} {s2 : StateName} {c : Code}
    {rest : List Code} {la : Nat}
    (h : CodeText.start t c = (t2, State.Fn s2, la)) :
    runCodeText t (c :: rest) = runLoop t2 s2 rest := by
  simp [runCodeText, h]

theorem runCodeText_cons_nok {t t2 : Tokenizer} {c : Code}
    {rest : List Code} {la : Nat}
    (h : CodeText.start t c = (t2, State.Nok, la)) :
    runCodeText t (c :: rest) = (t2, RunResult.reject) := by
  simp [runCodeText, h]

/-- Any accepting run of the code-text construct from its start appends to
the log a complete accepting shape with nonempty content, restoring the
open-token stack. -/
theorem runCodeText_accept_shape {t : Tokenizer} {codes : List Code}
    {t1 : Tokenizer} {la : Nat} {rem : List Code}
    (hrun : runCodeText t codes = (t1, RunResult.accept la rem)) :
    ∃ body, t1.events = t.events ++ acceptedShape body ∧ contentEvents body ∧
      wellNested body ∧ body ≠ [] ∧ t1.stack = t.stack := by
  cases codes with
  | nil => simp [runCodeText] at hrun
  | cons c rest =>
    by_cases h : c = Code.char grave ∧ t.code_text = true ∧
        (t.previous ≠ Code.char grave ∨
          (t.events.length > 0 ∧
            (t.events.get? (t.events.length - 1)).map Event.token_type =
              some Token.CharacterEscape))
    · have hfn : CodeText.start t c =
          (((t.enter Token.CodeText).enter Token.CodeTextSequence).consume c,
            State.Fn (StateName.sequence_open 1), 0) := by
        rw [start_guard, if_pos]
        exact h
      rw [show runCodeText t (c :: rest) = runLoop
          (((t.enter Token.CodeText).enter Token.CodeTextSequence).consume c)
          (StateName.sequence_open 1) rest from runCodeText_cons_fn hfn] at hrun
      refine runLoop_accept_inv rest _ _ t1 la rem ?_ hrun
      refine ⟨[⟨EventType.enter, Token.CodeText⟩, ⟨EventType.enter, Token.CodeTextSequence⟩],
        ?_, rfl, ?_⟩
      · simp [Tokenizer.enter, Tokenizer.consume]
      · simp [Tokenizer.enter, Tokenizer.consume, stackOf]
    · have hnok : CodeText.start t c = (t, State.Nok, 0) := by
        rw [start_guard, if_neg h]
      rw [runCodeText_cons_nok hnok] at hrun
      simp at hrun

/-! ### A modelled engine loop over the text content type -/

theorem runLoop_rem_length :
    ∀ (codes : List Code) (t : Tokenizer) (s : StateName) (t1 : Tokenizer)
      (la : Nat) (rem : List Code),
      runLoop t s codes = (t1, RunResult.accept la rem) →
      rem.length ≤ codes.length := by
  intro codes
  induction codes with
  | nil => intro t s t1 la rem h; simp [runLoop] at h
  | cons c rest ih =>
    intro t s t1 la rem h
    rcases h2 : stepState s t c with ⟨t2, r, la2⟩
    cases r with
    | Ok =>
      rw [runLoop_cons_ok h2] at h
      simp only [Prod.mk.injEq, RunResult.accept.injEq] at h
      obtain ⟨-, -, rfl⟩ := h
      split <;> simp
    | Nok => rw [runLoop_cons_nok h2] at h; simp at h
    | Fn s2 =>
      rw [runLoop_cons_fn h2] at h
      have := ih t2 s2 t1 la rem h
      simpa using Nat.le_succ_of_le this

theorem runCodeText_rem_length {t : Tokenizer} {c : Code} {rest : List Code}
    {t1 : Tokenizer} {la : Nat} {rem : List Code}
    (h : runCodeText t (c :: rest) = (t1, RunResult.accept la rem)) :
    rem.length ≤ rest.length := by
  rcases h2 : CodeText.start t c with ⟨t2, r, la2⟩
  cases r with
  | Ok =>
    have : CodeText.start t c = (t2, State.Ok, la2) := h2
    rw [start_guard] at this
    split_ifs at this <;> simp at this
  | Nok => rw [runCodeText_cons_nok h2] at h; simp at h
  | Fn s2 =>
    rw [runCodeText_cons_fn h2] at h
    exact runLoop_rem_length rest t2 s2 t1 la rem h

/-- Modelled from the spec: on universal reject the unit becomes literal
data (the concrete data construct is not among the source files). -/
def literalData (t : Tokenizer) (c : Code) : Tokenizer :=
  ((t.enter Token.Data).consume c).exit Token.Data

/-- Modelled from the spec: the engine's outer loop over the text content
type, restricted to the one construct of the sources — try the code-text
construct at each unit under checkpoint/rewind; on accept continue behind
it, otherwise rewind and emit the unit as literal data (the engine itself
is not among the source files). -/
def tokenizeText (t : Tokenizer) (codes : List Code) : Tokenizer :=
  match codes with
  | [] => t
  | c :: rest =>
    if c = Code.none then t
    else
      match h : runCodeText t (c :: rest) with
      | (t1, RunResult.accept _ rem) => tokenizeText t1 rem
      | (_, RunResult.reject) => tokenizeText (literalData t c) rest
      | (_, RunResult.outOfInput _) => tokenizeText (literalData t c) rest
termination_by codes.length
decreasing_by
  · have := runCodeText_rem_length h
    simp only [List.length_cons]
    omega
  · simp
  · simp

theorem nestCheck_mono :
    ∀ (es : List Event) (s1 s2 extra : List Token),
      nestCheck s1 es = some s2 → nestCheck (s1 ++ extra) es = some (s2 ++ extra) := by
  intro es
  induction es with
  | nil =>
    intro s1 s2 extra h
    simp [nestCheck] at h
    simp [nestCheck, h]
  | cons e es ih =>
    intro s1 s2 extra h
    obtain ⟨b, token⟩ := e
    cases b with
    | enter =>
      simp only [nestCheck] at h ⊢
      exact ih (token :: s1) s2 extra h
    | exit =>
      cases s1 with
      | nil => simp [nestCheck] at h
      | cons top s1' =>
        simp only [nestCheck] at h
        split_ifs at h with htop
        subst htop
        simpa [nestCheck] using ih s1' s2 extra h

theorem nestCheck_open3 : nestCheck [] open3 = some [Token.CodeText] := by
  simp [open3, nestCheck]

theorem nestCheck_close3 :
    nestCheck [Token.CodeText] close3 = some [] := by
  simp [close3, nestCheck]

theorem wellNested_acceptedShape {body : List Event} (h : wellNested body) :
    wellNested (acceptedShape body) := by
  unfold wellNested acceptedShape
  rw [List.append_assoc, nestCheck_append, nestCheck_open3]
  have hb : nestCheck [Token.CodeText] body = some [Token.CodeText] := by
    simpa using nestCheck_mono body [] [] [Token.CodeText] h
  simp [nestCheck_append, hb, nestCheck_close3]

theorem wellNested_append {es1 es2 : List Event} (h1 : wellNested es1)
    (h2 : wellNested es2) : wellNested (es1 ++ es2) := by
  unfold wellNested at *
  rw [nestCheck_append, h1, Option.some_bind, h2]

theorem literalData_events (t : Tokenizer) (c : Code) :
    (literalData t c).events = t.events ++ pairOf Token.Data := by
  simp [literalData, Tokenizer.enter, Tokenizer.exit, Tokenizer.consume, pairOf]

theorem wellNested_pairOf (token : Token) : wellNested (pairOf token) := by
  simp [wellNested, pairOf, nestCheck]

/-- The modelled engine loop keeps the event log well nested on every input,
however malformed. -/
theorem tokenizeText_wellNested :
    ∀ (n : Nat) (codes : List Code) (t : Tokenizer), codes.length ≤ n →
      wellNested t.events → wellNested (tokenizeText t codes).events := by
  intro n
  induction n with
  | zero =>
    intro codes t hlen h
    have : codes = [] := List.length_eq_zero.mp (Nat.le_zero.mp hlen)
    subst this
    rw [tokenizeText]
    exact h
  | succ n ih =>
    intro codes t hlen h
    match codes with
    | [] => rw [tokenizeText]; exact h
    | c :: rest =>
      by_cases hc : c = Code.none
      · rw [tokenizeText, if_pos hc]
        exact h
      · rw [tokenizeText, if_neg hc]
        split
        · rename_i t1 la rem hr
          have hlen1 : rem.length ≤ n := by
            have := runCodeText_rem_length hr
            simp only [List.length_cons] at hlen
            omega
          obtain ⟨body, hev, -, hwn, -, -⟩ := runCodeText_accept_shape hr
          exact ih rem t1 hlen1
            (by rw [hev]; exact wellNested_append h (wellNested_acceptedShape hwn))
        · refine ih rest (literalData t c) (by simpa [Nat.succ_le_succ_iff] using hlen) ?_
          rw [literalData_events]
          exact wellNested_append h (wellNested_pairOf _)
        · refine ih rest (literalData t c) (by simpa [Nat.succ_le_succ_iff] using hlen) ?_
          rw [literalData_events]
          exact wellNested_append h (wellNested_pairOf _)

/-! ### The delimiter-run resolver ("attention")

The resolver's implementation is not among the source files; only its
conformance tests are (`tests/attention.rs`).  The model below follows the
spec's §4.2 algorithm, with the pairing restriction passed in as a
parameter so the restriction the spec words can be compared against the
restriction the repository's tests pin down. -/

/-- The kind of span a pairing produces. -/
inductive SpanKind where
  | emphasis
  | strong
deriving DecidableEq, Repr

/-- A resolved emphasis or strong span: the absolute character ranges of the
consumed opening and closing markers. -/
structure Span where
  kind : SpanKind
  openStart : Nat
  openEnd : Nat
  closeStart : Nat
  closeEnd : Nat
deriving DecidableEq, Repr

/-- A delimiter run, pre-classified: marker, remaining length, the absolute
character range still unconsumed, and open/close eligibility. -/
structure Run where
  marker : Char
  size : Nat
  startPos : Nat
  endPos : Nat
  canOpen : Bool
  canClose : Bool
deriving DecidableEq, Repr

/-- Modelled from the spec: word for word, "a pairing between a closer and
opener of the same marker is invalid when both run lengths are divisible by
three and their sum is not divisible by three". -/
def specRuleInvalid (o r : Run) : Bool :=
  o.size % 3 == 0 && r.size % 3 == 0 && !((o.size + r.size) % 3 == 0)

/-- Modelled from the repository's conformance tests (tests/attention.rs)
and the CommonMark rule the spec paraphrases: when one of the two delimiters
can both open and close, a pairing is invalid when the sum of the two run
lengths is a multiple of three and the lengths are not both multiples of
three. -/
def multOfThreeInvalid (o r : Run) : Bool :=
  (r.canOpen || o.canClose) && (o.size + r.size) % 3 == 0 &&
    !(o.size % 3 == 0 && r.size % 3 == 0)

/-- Modelled from the spec: scan the opener stack backward for the nearest
same-marker opener usable under the pairing restriction, returning it and
the stack below it. -/
def findOpener (invalid : Run → Run → Bool) (r : Run) :
    List Run → Option (Run × List Run)
  | [] => Option.none
  | o :: os =>
    if o.marker = r.marker ∧ o.canOpen = true ∧ invalid o r = false then
      some (o, os)
    else
      findOpener invalid r os

/-- Modelled from the spec: process runs in source order with a stack of
potential openers.  A closer pairs with the nearest usable opener, consuming
two markers when both runs retain at least two (strong) and one otherwise
(emphasis), from the inner ends of the two runs; runs reaching zero are
dropped, a successful pairing discards the stack entries above its opener,
and a closer with remaining markers continues; a closer with no usable
opener stays literal (pushed when it can also open); leftover runs remain
literal. -/
def resolve (invalid : Run → Run → Bool) :
    List Run → List Run → List Span → List Span
  | _, [], out => out
  | stack, r :: rs, out =>
    if r.canClose = true then
      match findOpener invalid r stack with
      | some (o, below) =>
        let take := if 2 ≤ o.size ∧ 2 ≤ r.size then 2 else 1
        let span : Span :=
          { kind := if take = 2 then SpanKind.strong else SpanKind.emphasis,
            openStart := o.endPos - take, openEnd := o.endPos,
            closeStart := r.startPos, closeEnd := r.startPos + take }
        let o1 : Run := { o with size := o.size - take, endPos := o.endPos - take }
        let r1 : Run := { r with size := r.size - take, startPos := r.startPos + take }
        let stack1 := if o1.size = 0 then below else o1 :: below
        if r1.size = 0 then resolve invalid stack1 rs (out ++ [span])
        else resolve invalid stack1 (r1 :: rs) (out ++ [span])
      | Option.none =>
        resolve invalid (if r.canOpen = true then r :: stack else stack) rs out
    else
      resolve invalid (if r.canOpen = true then r :: stack else stack) rs out
termination_by stack rs out => (rs.map Run.size).sum + rs.length
decreasing_by
  all_goals simp only [List.map_cons, List.sum_cons, List.length_cons]
  all_goals (try omega)
  all_goals simp_all only [Run.size]
  all_goals split_ifs at * <;> omega

/-- Modelled from the spec: whitespace adjacency for flanking — space, tab,
the line-ending characters, and the line start or end. -/
def isWhitespaceAt : Option Char → Bool
  | Option.none => true
  | some c => c == ' ' || c == '\t' || c == '\n' || c == '\r'

/-- Modelled from the spec: punctuation for flanking, restricted to the
tested ASCII ranges (four contiguous character-code ranges). -/
def isPunctChar (c : Char) : Bool :=
  (33 ≤ c.toNat && c.toNat ≤ 47) || (58 ≤ c.toNat && c.toNat ≤ 64) ||
    (91 ≤ c.toNat && c.toNat ≤ 96) || (123 ≤ c.toNat && c.toNat ≤ 126)

/-- Modelled from the spec: punctuation classification of an optional
adjacent character; the line boundary is not punctuation. -/
def isPunctAt : Option Char → Bool
  | Option.none => false
  | some c => isPunctChar c

/-- Modelled from the spec: flanking classification of a run from its two
adjacent characters, and the open/close eligibility derived from it (with
the extra intraword restriction for the underscore marker). -/
def classifyRun (marker : Char) (pos n : Nat) (before after : Option Char) : Run :=
  let lf := !isWhitespaceAt after &&
    (!isPunctAt after || isWhitespaceAt before || isPunctAt before)
  let rf := !isWhitespaceAt before &&
    (!isPunctAt before || isWhitespaceAt after || isPunctAt after)
  { marker := marker, size := n, startPos := pos - n, endPos := pos,
    canOpen := if marker = '_' then lf && (!rf || isPunctAt before) else lf,
    canClose := if marker = '_' then rf && (!lf || isPunctAt after) else rf }

/-- Modelled from the spec: collect the maximal runs of one marker in a
character list, classifying each from its adjacent characters.  `pos` is the
position after the characters already scanned, `runLen` the length of the
marker run currently open, `beforeRun` the character before that run. -/
def scanRuns (marker : Char) (beforeRun : Option Char) (pos runLen : Nat) :
    List Char → List Run
  | [] =>
    if runLen = 0 then []
    else [classifyRun marker pos runLen beforeRun Option.none]
  | c :: rest =>
    if c = marker then scanRuns marker beforeRun (pos + 1) (runLen + 1) rest
    else if runLen = 0 then scanRuns marker (some c) (pos + 1) 0 rest
    else classifyRun marker pos runLen beforeRun (some c) ::
      scanRuns marker (some c) (pos + 1) 0 rest

/-- Modelled from the spec: the classified delimiter runs of an input, for
one marker. -/
def runsOf (marker : Char) (s : List Char) : List Run :=
  scanRuns marker Option.none 0 0 s

/-- Modelled from the spec: resolve the delimiter runs of an input under a
pairing restriction. -/
def resolveInput (invalid : Run → Run → Bool) (marker : Char) (s : List Char) :
    List Span :=
  resolve invalid [] (runsOf marker s) []

/-- One span wraps another: its opening markers end before the inner opening
starts and its closing markers start after the inner closing ends. -/
def wraps (outer inner : Span) : Prop :=
  outer.openEnd ≤ inner.openStart ∧ inner.closeEnd ≤ outer.closeStart

/-! ### Concrete inputs from the conformance tests and the spec's §8 -/

/-- The characters of `***foo***`. -/
def inputEmStrong : List Char := ['*', '*', '*', 'f', 'o', 'o', '*', '*', '*']

/-- The characters of `*foo**bar*` ("should not support adjacent emphasis in
certain cases", expected `<em>foo**bar</em>`). -/
def inputAdjacent : List Char := ['*', 'f', 'o', 'o', '*', '*', 'b', 'a', 'r', '*']

/-- The characters of `*foo**bar**baz*` (expected
`<em>foo<strong>bar</strong>baz</em>`). -/
def inputNestedStrong : List Char :=
  ['*', 'f', 'o', 'o', '*', '*', 'b', 'a', 'r', '*', '*', 'b', 'a', 'z', '*']

/-- The characters of `**foo **bar baz**` (expected
`**foo <strong>bar baz</strong>`). -/
def inputNearestOpener : List Char :=
  ['*', '*', 'f', 'o', 'o', ' ', '*', '*', 'b', 'a', 'r', ' ', 'b', 'a', 'z', '*', '*']

/-- The characters of `foo ***` (expected to stay fully literal). -/
def inputLiteralStars : List Char := ['f', 'o', 'o', ' ', '*', '*', '*']

/-- The spec's multiples-of-three restriction, as worded, never invalidates
any pairing: two lengths that are both divisible by three always have a sum
divisible by three. -/
theorem specRuleInvalid_never (o r : Run) : specRuleInvalid o r = false := by
  have h : (o.size % 3 = 0 ∧ r.size % 3 = 0) → (o.size + r.size) % 3 = 0 := by omega
  simp only [specRuleInvalid]
  by_cases h1 : o.size % 3 = 0
  · by_cases h2 : r.size % 3 = 0
    · simp [h1, h2, h ⟨h1, h2⟩]
    · simp [h2]
  · simp [h1]

/-- Model validation: `*foo**bar**baz*` resolves to a strong span nested in
an emphasis span under the tests' restriction, matching
`<em>foo<strong>bar</strong>baz</em>`. -/
theorem resolver_agrees_nested_strong :
    resolveInput multOfThreeInvalid '*' inputNestedStrong =
      [⟨SpanKind.strong, 4, 6, 9, 11⟩, ⟨SpanKind.emphasis, 0, 1, 14, 15⟩] := by
  simp [resolveInput, resolve, runsOf, scanRuns, classifyRun, findOpener,
    multOfThreeInvalid, isWhitespaceAt, isPunctAt, isPunctChar, inputNestedStrong]

/-- Model validation: `**foo **bar baz**` resolves only the nearest opener,
matching `**foo <strong>bar baz</strong>`. -/
theorem resolver_agrees_nearest_opener :
    resolveInput multOfThreeInvalid '*' inputNearestOpener =
      [⟨SpanKind.strong, 6, 8, 15, 17⟩] := by
  simp [resolveInput, resolve, runsOf, scanRuns, classifyRun, findOpener,
    multOfThreeInvalid, isWhitespaceAt, isPunctAt, isPunctChar, inputNearestOpener]

/-- Model validation: `foo ***` resolves to no spans at all — the markers
stay literal. -/
theorem resolver_agrees_literal_fallback :
    resolveInput multOfThreeInvalid '*' inputLiteralStars = [] := by
  simp [resolveInput, resolve, runsOf, scanRuns, classifyRun, findOpener,
    multOfThreeInvalid, isWhitespaceAt, isPunctAt, isPunctChar, inputLiteralStars]

/-- Claim C1, counterexample.  The claim words the multiples-of-three rule
as rejecting a pairing exactly when both run lengths are divisible by three
and their sum is not — a condition that never holds (`specRuleInvalid_never`),
so under the claim's rule no pairing is ever rejected.  On the repository's
own test input `*foo**bar*` (tests/attention.rs, "should not support
adjacent emphasis in certain cases", expected `<em>foo**bar</em>`), a
resolver using the claim's rule pairs the `**` closer with the `*` opener
and produces two emphasis spans, while the expected output — produced by the
restriction stated in the amended claim — keeps `**` literal inside one
emphasis span.  The two disagree, so the claim is false of the program. -/
theorem c1_counterexample :
    resolveInput specRuleInvalid '*' inputAdjacent =
      [⟨SpanKind.emphasis, 0, 1, 4, 5⟩, ⟨SpanKind.emphasis, 5, 6, 9, 10⟩] ∧
    resolveInput multOfThreeInvalid '*' inputAdjacent =
      [⟨SpanKind.emphasis, 0, 1, 9, 10⟩] ∧
    resolveInput specRuleInvalid '*' inputAdjacent ≠
      resolveInput multOfThreeInvalid '*' inputAdjacent := by
  refine ⟨?_, ?_, ?_⟩ <;>
    simp [resolveInput, resolve, runsOf, scanRuns, classifyRun, findOpener,
      multOfThreeInvalid, specRuleInvalid, isWhitespaceAt, isPunctAt, isPunctChar,
      inputAdjacent]

/-- Claim C1 (amended): for a pair of same-marker delimiter runs considered
by the resolver, the pairing is rejected under the multiples-of-three rule
exactly when one of the two delimiters can both open and close, the sum of
the two run lengths is divisible by three, and the run lengths are not both
divisible by three; parsing `***foo***` yields an emphasis span wrapping a
strong span. -/
theorem c1_multiples_of_three :
    (∀ o r : Run, multOfThreeInvalid o r = true ↔
      ((r.canOpen = true ∨ o.canClose = true) ∧ (o.size + r.size) % 3 = 0 ∧
        ¬(o.size % 3 = 0 ∧ r.size % 3 = 0))) ∧
    resolveInput multOfThreeInvalid '*' inputEmStrong =
      [⟨SpanKind.strong, 1, 3, 6, 8⟩, ⟨SpanKind.emphasis, 0, 1, 8, 9⟩] ∧
    wraps ⟨SpanKind.emphasis, 0, 1, 8, 9⟩ ⟨SpanKind.strong, 1, 3, 6, 8⟩ := by
  refine ⟨?_, ?_, by simp [wraps]⟩
  · intro o r
    simp [multOfThreeInvalid, Bool.and_eq_true, Bool.or_eq_true]
    tauto
  · simp [resolveInput, resolve, runsOf, scanRuns, classifyRun, findOpener,
      multOfThreeInvalid, isWhitespaceAt, isPunctAt, isPunctChar, inputEmStrong]

/-! ### Concrete tokenizers and inputs used by the witnesses -/

/-- A fresh tokenizer with the code-text construct enabled. -/
def tInit : Tokenizer :=
  { events := [], stack := [], previous := Code.none, consumed := 0,
    lazy := false, code_text := true }

/-- A tokenizer mid-run, holding an open code-text span. -/
def tMid : Tokenizer :=
  { events := [⟨EventType.enter, Token.CodeText⟩,
      ⟨EventType.enter, Token.CodeTextSequence⟩],
    stack := [Token.CodeTextSequence, Token.CodeText], previous := Code.char 'a',
    consumed := 3, lazy := false, code_text := true }

/-- The log of a code-text run up to a speculative closing sequence. -/
def esClose : List Event :=
  [⟨EventType.enter, Token.CodeText⟩, ⟨EventType.enter, Token.CodeTextSequence⟩,
    ⟨EventType.exit, Token.CodeTextSequence⟩, ⟨EventType.enter, Token.CodeTextData⟩,
    ⟨EventType.exit, Token.CodeTextData⟩]

/-- A tokenizer inside a speculative closing sequence. -/
def tClose : Tokenizer :=
  { events := esClose ++ [⟨EventType.enter, Token.CodeTextSequence⟩],
    stack := [Token.CodeTextSequence, Token.CodeText], previous := Code.char grave,
    consumed := 4, lazy := false, code_text := true }

/-- A fresh tokenizer whose lazy flag is set. -/
def tLazy : Tokenizer :=
  { events := [], stack := [], previous := Code.none, consumed := 0,
    lazy := true, code_text := true }

/-- The units of `` `a` `` followed by end-of-input. -/
def demoAccept : List Code :=
  [Code.char grave, Code.char 'a', Code.char grave, Code.none]

/-- The units of `` `a `` followed by end-of-input: no closing sequence. -/
def demoReject : List Code := [Code.char grave, Code.char 'a', Code.none]

/-- The tokenizer left behind by the rejecting run on `demoReject`. -/
def tRejected : Tokenizer :=
  { events := esClose, stack := [Token.CodeText], previous := Code.char 'a',
    consumed := 2, lazy := false, code_text := true }

/-- The tokenizer produced by the accepting run on `demoAccept`. -/
def tAccepted : Tokenizer :=
  { events := esClose ++ [⟨EventType.enter, Token.CodeTextSequence⟩,
      ⟨EventType.exit, Token.CodeTextSequence⟩, ⟨EventType.exit, Token.CodeText⟩],
    stack := [], previous := Code.char grave, consumed := 3, lazy := false,
    code_text := true }

/-- `n`-fold consumption of backticks. -/
def consumeN (t : Tokenizer) : Nat → Tokenizer
  | 0 => t
  | n + 1 => consumeN (t.consume (Code.char grave)) n

/-! ### Claims C2 to C7 and C10 -/

/-- Claim C2: when the closing backtick run ends (at a non-backtick unit)
with accumulated length equal to the opening length, `sequence_close` closes
the `CodeTextSequence` and `CodeText` spans and accepts, reporting one unit
of lookahead unless the ending unit is end-of-input, in which case zero. -/
theorem c2_sequence_close_equal (t : Tokenizer) (code : Code) (size_open : Nat)
    (h : code ≠ Code.char grave) :
    CodeText.sequence_close t code size_open size_open =
      ((t.exit Token.CodeTextSequence).exit Token.CodeText, State.Ok,
        if code = Code.none then 0 else 1) :=
  sequence_close_done t code size_open h

/-- Witness for C2: a concrete closing run of length two, ended once by an
ordinary character (one unit of lookahead) and once by end-of-input (zero). -/
theorem c2_witness :
    CodeText.sequence_close tMid (Code.char 'x') 2 2 =
      ((tMid.exit Token.CodeTextSequence).exit Token.CodeText, State.Ok, 1) ∧
    CodeText.sequence_close tMid Code.none 2 2 =
      ((tMid.exit Token.CodeTextSequence).exit Token.CodeText, State.Ok, 0) := by
  constructor
  · simpa using c2_sequence_close_equal tMid (Code.char 'x') 2 (by decide)
  · simpa using c2_sequence_close_equal tMid Code.none 2 (by decide)

/-- Claim C3: when the closing backtick run ends with a length different
from the opening length, the Enter and Exit events of that speculative
closing sequence are retagged in place to plain `CodeTextData`, and scanning
resumes in the between state with the opening length unchanged. -/
theorem c3_closing_retag (t : Tokenizer) (es : List Event) (code : Code)
    (size_open size : Nat) (h : code ≠ Code.char grave) (hne : size_open ≠ size)
    (hev : t.events = es ++ [⟨EventType.enter, Token.CodeTextSequence⟩]) :
    CodeText.sequence_close t code size_open size =
      CodeText.between
        { t with events := es ++ pairOf Token.CodeTextData, stack := t.stack.tail }
        code size_open := by
  rw [sequence_close_retag t code size_open size h hne, hev, retag_close_events]
  rfl

/-- The tokenizer `tClose` after its speculative closing sequence has been
retagged to plain data. -/
def tCloseRetagged : Tokenizer :=
  { tClose with events := esClose ++ pairOf Token.CodeTextData, stack := tClose.stack.tail }

/-- Witness for C3: a closing run of length one against an opening of two is
retagged to data and scanning resumes with opening length still two. -/
theorem c3_witness :
    CodeText.sequence_close tClose (Code.char 'x') 2 1 =
      CodeText.between tCloseRetagged (Code.char 'x') 2 :=
  c3_closing_retag tClose esClose (Code.char 'x') 2 1 (by decide) (by decide) rfl

/-- Claim C4: reaching end-of-input in the between state rejects with zero
lookahead, and a rejected attempt falls back through the engine's
checkpoint rewind, restoring the tokenizer the attempt started from. -/
theorem c4_eoi_reject :
    (∀ (t : Tokenizer) (size_open : Nat),
      CodeText.between t Code.none size_open = (t, State.Nok, 0)) ∧
    (∀ (t : Tokenizer) (codes : List Code) (t1 : Tokenizer),
      runCodeText t codes = (t1, RunResult.reject) → attempt t codes = (t, false)) := by
  refine ⟨between_none, ?_⟩
  intro t codes t1 h
  simp [attempt, h]

/-- Witness for C4: the unterminated input `` `a `` rejects at end-of-input
and the checkpointed attempt restores the original tokenizer. -/
theorem c4_witness :
    CodeText.between tMid Code.none 2 = (tMid, State.Nok, 0) ∧
    attempt tInit demoReject = (tInit, false) := by
  refine ⟨c4_eoi_reject.1 tMid 2, c4_eoi_reject.2 tInit demoReject tRejected ?_⟩
  simp [demoReject, runCodeText, runLoop, stepState, CodeText.start,
    CodeText.sequence_open, CodeText.between, CodeText.data,
    CodeText.sequence_close, tInit, tRejected, esClose, Tokenizer.enter,
    Tokenizer.exit, Tokenizer.consume, isEol, grave]

/-- Claim C5: `start` opens a span (entering `CodeText` and
`CodeTextSequence`) exactly when the unit is a backtick, the construct is
enabled, and the previous unit is not a backtick unless the latest event is
a character escape — rejecting untouched otherwise — and the opening
sequence then consumes a maximal backtick run of length at least one. -/
theorem c5_start_gate :
    (∀ (t : Tokenizer) (code : Code),
      CodeText.start t code =
        if code = Code.char grave ∧ t.code_text = true ∧
            (t.previous ≠ Code.char grave ∨
              (t.events.length > 0 ∧
                (t.events.get? (t.events.length - 1)).map Event.token_type =
                  some Token.CharacterEscape)) then
          (((t.enter Token.CodeText).enter Token.CodeTextSequence).consume code,
            State.Fn (StateName.sequence_open 1), 0)
        else (t, State.Nok, 0)) ∧
    (∀ (n : Nat) (t : Tokenizer) (size : Nat) (c : Code) (rest : List Code),
      runLoop t (StateName.sequence_open size)
          (List.replicate n (Code.char grave) ++ c :: rest) =
        runLoop (consumeN t n) (StateName.sequence_open (size + n)) (c :: rest)) ∧
    (∀ (t : Tokenizer) (c : Code) (size : Nat), c ≠ Code.char grave →
      CodeText.sequence_open t c size =
        CodeText.between (t.exit Token.CodeTextSequence) c size) := by
  refine ⟨start_guard, ?_, sequence_open_break⟩
  intro n
  induction n with
  | zero => intro t size c rest; simp [consumeN]
  | succ n ih =>
    intro t size c rest
    have hstep : stepState (StateName.sequence_open size) t (Code.char grave) =
        (t.consume (Code.char grave), State.Fn (StateName.sequence_open (size + 1)), 0) := by
      simp [stepState, sequence_open_grave]
    rw [List.replicate_succ, List.cons_append, runLoop_cons_fn hstep, ih,
      show size + 1 + n = size + (n + 1) from by omega]
    rfl

/-- Witness for C5: a reject on an ordinary character, a two-backtick run
consumed in full, and the sequence closing at the first non-backtick. -/
theorem c5_witness :
    CodeText.start tInit (Code.char 'a') = (tInit, State.Nok, 0) ∧
    runLoop tMid (StateName.sequence_open 1)
        (List.replicate 2 (Code.char grave) ++ [Code.char 'x', Code.none]) =
      runLoop (consumeN tMid 2) (StateName.sequence_open 3)
        [Code.char 'x', Code.none] ∧
    CodeText.sequence_open tMid (Code.char 'x') 3 =
      CodeText.between (tMid.exit Token.CodeTextSequence) (Code.char 'x') 3 := by
  refine ⟨?_, c5_start_gate.2.1 2 tMid 1 (Code.char 'x') [Code.none],
    c5_start_gate.2.2 tMid (Code.char 'x') 3 (by decide)⟩
  rw [c5_start_gate.1 tInit (Code.char 'a'), if_neg (by decide)]

/-- Claim C6: between the sequences, every line-ending unit (CRLF, bare CR,
or bare LF) becomes its own Enter/Exit `LineEnding` pair rather than
`CodeTextData`, and a backtick starts a closing-sequence attempt. -/
theorem c6_between_scan :
    (∀ (t : Tokenizer) (code : Code) (size_open : Nat), isEol code = true →
      CodeText.between t code size_open =
        (((t.enter Token.LineEnding).consume code).exit Token.LineEnding,
          State.Fn (StateName.between size_open), 0)) ∧
    (∀ (t : Tokenizer) (size_open : Nat),
      CodeText.between t (Code.char grave) size_open =
        CodeText.sequence_close (t.enter Token.CodeTextSequence) (Code.char grave)
          size_open 0) :=
  ⟨between_eol, between_grave⟩

/-- Witness for C6: all three line-ending kinds, and a backtick entering the
closing sequence. -/
theorem c6_witness :
    CodeText.between tMid Code.carriageReturnLineFeed 2 =
      (((tMid.enter Token.LineEnding).consume Code.carriageReturnLineFeed).exit
          Token.LineEnding, State.Fn (StateName.between 2), 0) ∧
    CodeText.between tMid (Code.char '\n') 2 =
      (((tMid.enter Token.LineEnding).consume (Code.char '\n')).exit
          Token.LineEnding, State.Fn (StateName.between 2), 0) ∧
    CodeText.between tMid (Code.char '\r') 2 =
      (((tMid.enter Token.LineEnding).consume (Code.char '\r')).exit
          Token.LineEnding, State.Fn (StateName.between 2), 0) ∧
    CodeText.between tMid (Code.char grave) 2 =
      CodeText.sequence_close (tMid.enter Token.CodeTextSequence)
        (Code.char grave) 2 0 :=
  ⟨c6_between_scan.1 tMid Code.carriageReturnLineFeed 2 (by decide),
    c6_between_scan.1 tMid (Code.char '\n') 2 (by decide),
    c6_between_scan.1 tMid (Code.char '\r') 2 (by decide),
    c6_between_scan.2 tMid 2⟩

/-- Claim C7: the non-lazy-continuation helper consumes exactly one line
ending and then rejects if the lazy flag is set, otherwise accepts with one
unit of lookahead unless the following unit is end-of-input; on any unit
that is not a line ending it rejects immediately. -/
theorem c7_non_lazy :
    (∀ (t : Tokenizer) (code : Code), isEol code = true →
      NonLazyContinuation.start t code =
        (((t.enter Token.LineEnding).consume code).exit Token.LineEnding,
          State.Fn StateName.non_lazy_after, 0)) ∧
    (∀ (t : Tokenizer) (code : Code), isEol code = false →
      NonLazyContinuation.start t code = (t, State.Nok, 0)) ∧
    (∀ (t : Tokenizer) (code : Code), t.lazy = true →
      NonLazyContinuation.after t code = (t, State.Nok, 0)) ∧
    (∀ (t : Tokenizer) (code : Code), t.lazy = false →
      NonLazyContinuation.after t code =
        (t, State.Ok, if code = Code.none then 0 else 1)) := by
  refine ⟨?_, ?_, ?_, ?_⟩ <;> intro t code h <;>
    simp [NonLazyContinuation.start, NonLazyContinuation.after, h]

/-- Witness for C7: each of the helper's behaviors at a concrete tokenizer. -/
theorem c7_witness :
    NonLazyContinuation.start tInit (Code.char '\n') =
      (((tInit.enter Token.LineEnding).consume (Code.char '\n')).exit
          Token.LineEnding, State.Fn StateName.non_lazy_after, 0) ∧
    NonLazyContinuation.start tInit (Code.char 'a') = (tInit, State.Nok, 0) ∧
    NonLazyContinuation.after tLazy (Code.char 'b') = (tLazy, State.Nok, 0) ∧
    NonLazyContinuation.after tInit Code.none = (tInit, State.Ok, 0) ∧
    NonLazyContinuation.after tInit (Code.char 'b') = (tInit, State.Ok, 1) := by
  refine ⟨c7_non_lazy.1 tInit (Code.char '\n') (by decide),
    c7_non_lazy.2.1 tInit (Code.char 'a') (by decide),
    c7_non_lazy.2.2.1 tLazy (Code.char 'b') (by decide), ?_, ?_⟩
  · simpa using c7_non_lazy.2.2.2 tInit Code.none (by decide)
  · simpa using c7_non_lazy.2.2.2 tInit (Code.char 'b') (by decide)

/-- Claim C10: with the lazy flag set, the helper's rejection is not atomic
with respect to the log — `start` has already consumed the line ending and
appended one Enter/Exit `LineEnding` pair before the continuation rejects,
and `after` performs no undo of its own. -/
theorem c10_lazy_reject_after_consume (t : Tokenizer) (code next : Code)
    (h : isEol code = true) (hlazy : t.lazy = true) :
    ∃ t1, NonLazyContinuation.start t code =
        (t1, State.Fn StateName.non_lazy_after, 0) ∧
      t1.events = t.events ++ pairOf Token.LineEnding ∧
      t1.consumed = t.consumed + 1 ∧
      NonLazyContinuation.after t1 next = (t1, State.Nok, 0) := by
  refine ⟨((t.enter Token.LineEnding).consume code).exit Token.LineEnding,
    ?_, ?_, ?_, ?_⟩
  · simp [NonLazyContinuation.start, h]
  · simp [Tokenizer.enter, Tokenizer.exit, Tokenizer.consume, pairOf]
  · simp [Tokenizer.enter, Tokenizer.exit, Tokenizer.consume]
  · simp [NonLazyContinuation.after, Tokenizer.enter, Tokenizer.exit,
      Tokenizer.consume, hlazy]

/-- Claim C8: the event log stays well nested — the modelled engine loop
keeps the whole log stack-balanced on every input, and every accepting run
of the code-text construct appends a balanced event sequence opening with
Enter(CodeText) and closing with Exit(CodeText), restoring the open-token
stack. -/
theorem c8_log_integrity :
    (∀ (t : Tokenizer) (codes : List Code), wellNested t.events →
      wellNested (tokenizeText t codes).events) ∧
    (∀ (t : Tokenizer) (codes : List Code) (t1 : Tokenizer) (la : Nat)
      (rem : List Code),
      runCodeText t codes = (t1, RunResult.accept la rem) →
      ∃ app, t1.events = t.events ++ app ∧ wellNested app ∧
        app.head? = some ⟨EventType.enter, Token.CodeText⟩ ∧
        app.getLast? = some ⟨EventType.exit, Token.CodeText⟩ ∧
        t1.stack = t.stack) := by
  constructor
  · intro t codes h
    exact tokenizeText_wellNested codes.length codes t (Nat.le_refl _) h
  · intro t codes t1 la rem hrun
    obtain ⟨body, hev, -, hwn, -, hstk⟩ := runCodeText_accept_shape hrun
    refine ⟨acceptedShape body, hev, wellNested_acceptedShape hwn, ?_, ?_, hstk⟩
    · simp [acceptedShape, open3]
    · have h2 : acceptedShape body =
          (open3 ++ body ++ [⟨EventType.enter, Token.CodeTextSequence⟩,
            ⟨EventType.exit, Token.CodeTextSequence⟩]) ++
          [⟨EventType.exit, Token.CodeText⟩] := by
        simp [acceptedShape, close3]
      rw [h2, List.getLast?_concat]

/-- Witness for C8: the malformed input `` `a `` keeps the log balanced
through the engine loop, and the accepting run on `` `a` `` appends the
balanced `CodeText` shape. -/
theorem c8_witness :
    wellNested (tokenizeText tInit demoReject).events ∧
    (∃ app, tAccepted.events = tInit.events ++ app ∧ wellNested app ∧
      app.head? = some ⟨EventType.enter, Token.CodeText⟩ ∧
      app.getLast? = some ⟨EventType.exit, Token.CodeText⟩ ∧
      tAccepted.stack = tInit.stack) := by
  constructor
  · exact c8_log_integrity.1 tInit demoReject rfl
  · refine c8_log_integrity.2 tInit demoAccept tAccepted 0 [] ?_
    simp [demoAccept, runCodeText, runLoop, stepState, CodeText.start,
      CodeText.sequence_open, CodeText.between, CodeText.data,
      CodeText.sequence_close, tInit, tAccepted, esClose, Tokenizer.enter,
      Tokenizer.exit, Tokenizer.consume, isEol, grave]

/-- Claim C9: every accepted code span has nonempty content — between the
Exit of the opening sequence and the Enter of the matching closing sequence
of an accepting run lies at least one content event, the Enter of a
`CodeTextData` or `LineEnding` span. -/
theorem c9_nonempty_content :
    ∀ (t : Tokenizer) (codes : List Code) (t1 : Tokenizer) (la : Nat)
      (rem : List Code),
      runCodeText t codes = (t1, RunResult.accept la rem) →
      ∃ body, t1.events = t.events ++ (open3 ++ body ++ close3) ∧ body ≠ [] ∧
        ∃ e ∈ body, e.event_type = EventType.enter ∧
          (e.token_type = Token.CodeTextData ∨ e.token_type = Token.LineEnding) := by
  intro t codes t1 la rem hrun
  obtain ⟨body, hev, hct, hwn, hbne, -⟩ := runCodeText_accept_shape hrun
  refine ⟨body, by simpa [acceptedShape] using hev, hbne, ?_⟩
  cases body with
  | nil => exact absurd rfl hbne
  | cons e es =>
    exact ⟨e, List.mem_cons_self e es, wellNested_head_enter hwn,
      hct e (List.mem_cons_self e es)⟩

/-- Witness for C9: the accepting run on `` `a` `` has the data pair of `a`
between its opening and closing sequences. -/
theorem c9_witness :
    ∃ body, tAccepted.events = tInit.events ++ (open3 ++ body ++ close3) ∧
      body ≠ [] ∧
      ∃ e ∈ body, e.event_type = EventType.enter ∧
        (e.token_type = Token.CodeTextData ∨ e.token_type = Token.LineEnding) := by
  refine c9_nonempty_content tInit demoAccept tAccepted 0 [] ?_
  simp [demoAccept, runCodeText, runLoop, stepState, CodeText.start,
    CodeText.sequence_open, CodeText.between, CodeText.data,
    CodeText.sequence_close, tInit, tAccepted, esClose, Tokenizer.enter,
    Tokenizer.exit, Tokenizer.consume, isEol, grave]

/-- Witness for C10: a lazy tokenizer fed a line ending then an ordinary
unit. -/
theorem c10_witness :
    ∃ t1, NonLazyContinuation.start tLazy (Code.char '\n') =
        (t1, State.Fn StateName.non_lazy_after, 0) ∧
      t1.events = tLazy.events ++ pairOf Token.LineEnding ∧
      t1.consumed = tLazy.consumed + 1 ∧
      NonLazyContinuation.after t1 (Code.char 'b') = (t1, State.Nok, 0) :=
  c10_lazy_reject_after_consume tLazy (Code.char '\n') (Code.char 'b')
    (by decide) (by decide)

end MD
